import Mathlib

/-!
Verification of the ensemble-aggregation core specified for the MONAI
example-notebook repository.  The repository slice contains only the two
tutorial notebooks; the bodies of the library transforms `MeanEnsembled`
and `VoteEnsembled` are not part of the slice, so the aggregators are
modelled from the specification text (sections 3, 4, 6, 7 of the spec).
The K-fold data split of `models_ensemble.ipynb` is embedded directly
from the notebook source.

Tensors are modelled with exact rational entries: the spec describes the
numeric algorithm (weighted sums, division by the ensemble size E, and
majority vote over discrete labels), and every claim is about that
algorithm, not about floating-point rounding.
-/

namespace MonaiEnsemble

/-- A prediction tensor: a shape (dimension sizes, conventionally
(Batch, Channel, spatial...)) together with the row-major flattened data.
A well-formed tensor has `data.length = shape.prod`. -/
structure Tensor where
  shape : List Nat
  data : List ℚ
deriving DecidableEq

/-- A tensor is well formed when its flat data has exactly one entry per
coordinate of its shape. -/
def Tensor.wf (t : Tensor) : Prop := t.data.length = t.shape.prod

instance (t : Tensor) : Decidable t.wf := by
  unfold Tensor.wf; infer_instance

/-- Modelled from the spec: the error taxonomy of section 7 for the
aggregators (the vote aggregator variant `NonDiscreteInput` is the
policy the spec leaves to the implementation and is not raised by this
model, which adopts the documented alternative of treating continuous
input as ordinary values). -/
inductive AggError where
  | ShapeMismatch
  | WeightShapeMismatch
  | EmptyStack
deriving DecidableEq

deriving instance DecidableEq for Except

/-- Number of elements addressed by a member shape. -/
def numel (shape : List Nat) : Nat := shape.prod

/-- Broadcast of a weight dimension of size `dw` against position `b`:
a size-one weight dimension is reused for every position, otherwise the
position indexes the weight dimension directly. -/
def bcastIdx (dw : Nat) (b : Nat) : Nat := if dw = 1 then 0 else b

/-- Split a flat list into consecutive blocks of `k` elements. -/
def chunk (k : Nat) : List α → List (List α)
  | [] => []
  | a :: l =>
    if _h : k = 0 then [] else
      ((a :: l).take k) :: chunk k ((a :: l).drop k)
termination_by l => l.length
decreasing_by
  simp only [List.length_drop, List.length_cons]
  omega

/-- Modelled from the spec: the per-member weight factor at flat
coordinate `j` of a member of shape `mshape = B :: C :: spatial`, for a
rank-3 weight block `blk` (the slice of the weight array belonging to
one ensemble member, of extent `Bw × Cw`): the weights are indexed
jointly over (E, Batch, Channel) and broadcast over the remaining
spatial dimensions. -/
def rank3WeightAt (Bw Cw : Nat) (blk : List ℚ) (mshape : List Nat) (j : Nat) : ℚ :=
  let S := numel (mshape.drop 2)
  let C := mshape.getD 1 1
  let b := j / (S * C)
  let c := (j / S) % C
  blk.getD (bcastIdx Bw b * Cw + bcastIdx Cw c) 0

/-- Modelled from the spec: `aggregate_mean` (spec sections 4.1, 6, 7),
whose implementation (the `MeanEnsembled` transform) is not contained in
the repository slice.  Validation is eager: an empty stack fails with
`EmptyStack`, a stack whose members do not all share one shape fails
with `ShapeMismatch`, and a supplied weight array whose leading
dimension is not E or whose rank is neither 1 nor 3 fails with
`WeightShapeMismatch`.  Without weights the result is the element-wise
arithmetic mean; with weights each member is multiplied by its
(broadcast) weight factor, the members are summed in stack order and
the sum is divided by E (not by the sum of the weights). -/
def aggregate_mean (stack : List Tensor) (weights : Option Tensor) :
    Except AggError Tensor :=
  match stack with
  | [] => .error .EmptyStack
  | t :: ts =>
    if ts.all (fun s => s.shape = t.shape) then
      let E : Nat := (t :: ts).length
      let L : Nat := numel t.shape
      match weights with
      | none =>
        .ok ⟨t.shape, (List.range L).map (fun j =>
          (((t :: ts).map (fun m => m.data.getD j 0)).sum) / (E : ℚ))⟩
      | some w =>
        if w.shape.length = 1 ∧ w.shape.getD 0 0 = E then
          .ok ⟨t.shape, (List.range L).map (fun j =>
            (((w.data.zip (t :: ts)).map
              (fun p => p.1 * p.2.data.getD j 0)).sum) / (E : ℚ))⟩
        else if w.shape.length = 3 ∧ w.shape.getD 0 0 = E then
          let Bw := w.shape.getD 1 1
          let Cw := w.shape.getD 2 1
          let blocks := chunk (Bw * Cw) w.data
          .ok ⟨t.shape, (List.range L).map (fun j =>
            (((blocks.zip (t :: ts)).map
              (fun p => rank3WeightAt Bw Cw p.1 t.shape j * p.2.data.getD j 0)).sum) / (E : ℚ))⟩
        else .error .WeightShapeMismatch
    else .error .ShapeMismatch

/-- Modelled from the spec: one comparison step of the vote tally.  The
candidate `v` replaces the current selection `acc` when it has a
strictly higher occurrence count in the observed values `vals`, or ties
on the count and is numerically larger. -/
def voteStep (vals : List ℚ) (acc v : ℚ) : ℚ :=
  if vals.count acc < vals.count v ∨
      (vals.count v = vals.count acc ∧ acc < v) then v else acc

/-- Modelled from the spec: the vote of one coordinate (spec section
4.2).  Among the values observed across the ensemble members the one
with the highest occurrence count is selected; a tie for the highest
count is broken deterministically in favour of the numerically largest
value. -/
def voteAt (vals : List ℚ) : ℚ :=
  vals.foldl (voteStep vals) (vals.headD 0)

/-- Modelled from the spec: `aggregate_vote` (spec sections 4.2, 6, 7),
whose implementation (the `VoteEnsembled` transform) is not contained in
the repository slice.  Validation is eager: an empty stack fails with
`EmptyStack`, a stack whose members do not all share one shape fails
with `ShapeMismatch`.  The output has the shape of a member and holds
at each coordinate the most frequent value observed there across the
members, ties broken towards the numerically largest value. -/
def aggregate_vote (stack : List Tensor) : Except AggError Tensor :=
  match stack with
  | [] => .error .EmptyStack
  | t :: ts =>
    if ts.all (fun s => s.shape = t.shape) then
      .ok ⟨t.shape, (List.range (numel t.shape)).map (fun j =>
        voteAt ((t :: ts).map (fun m => m.data.getD j 0)))⟩
    else .error .ShapeMismatch

/-! ### K-fold data split of `models_ensemble.ipynb`

Embedded from the notebook cell that builds `train_files`, `val_files`
and `test_files`: 60 sorted image/segmentation file paths, the first 50
split into 5 folds of 10, the last 10 kept as the test set. -/

/-- The Python slice `l[a:b]` (for `a ≤ b`). -/
def pySlice (l : List α) (a b : Nat) : List α := (l.drop a).take (b - a)

/-- Fold `i` training files of the notebook:
`images[:10*i] + images[10*(i+1):50]` zipped with the same slices of
`segs` (the notebook builds a dict per pair; the pair itself is kept
here). -/
def train_files (images segs : List α) (i : Nat) : List (α × α) :=
  (pySlice images 0 (10 * i) ++ pySlice images (10 * (i + 1)) 50).zip
    (pySlice segs 0 (10 * i) ++ pySlice segs (10 * (i + 1)) 50)

/-- Fold `i` validation files of the notebook:
`images[10*i:10*(i+1)]` zipped with the same slice of `segs`. -/
def val_files (images segs : List α) (i : Nat) : List (α × α) :=
  (pySlice images (10 * i) (10 * (i + 1))).zip
    (pySlice segs (10 * i) (10 * (i + 1)))

/-- The notebook test files: `images[50:60]` zipped with `segs[50:60]`. -/
def test_files (images segs : List α) : List (α × α) :=
  (pySlice images 50 60).zip (pySlice segs 50 60)

/-! ### Auxiliary lemmas -/

theorem map_getD_range (l : List ℚ) (d : ℚ) :
    (List.range l.length).map (fun j => l.getD j d) = l := by
  induction l with
  | nil => simp
  | cons a l ih =>
    rw [List.length_cons, List.range_succ_eq_map, List.map_cons, List.map_map]
    simp only [List.getD_cons_zero, Function.comp_def, List.getD_cons_succ]
    rw [ih]

theorem getD_map_range (L j : Nat) (g : Nat → ℚ) (hj : j < L) (d : ℚ) :
    ((List.range L).map g).getD j d = g j := by
  rw [List.getD_eq_getElem?_getD, List.getElem?_map, List.getElem?_range hj]
  rfl

theorem getD_map_mul (a : ℚ) (l : List ℚ) (j : Nat) :
    (l.map (fun x => a * x)).getD j 0 = a * l.getD j 0 := by
  rw [List.getD_eq_getElem?_getD, List.getD_eq_getElem?_getD, List.getElem?_map]
  cases l[j]? with
  | none => simp
  | some x => simp

/-- The lexicographic order (occurrence count, then value) with respect
to which the vote selection is maximal. -/
def lexLe (vals : List ℚ) (a b : ℚ) : Prop :=
  vals.count a < vals.count b ∨ (vals.count a = vals.count b ∧ a ≤ b)

theorem lexLe_refl (vals : List ℚ) (a : ℚ) : lexLe vals a a :=
  Or.inr ⟨rfl, le_refl a⟩

theorem lexLe_trans {vals : List ℚ} {a b c : ℚ}
    (h1 : lexLe vals a b) (h2 : lexLe vals b c) : lexLe vals a c := by
  rcases h1 with h1 | ⟨h1, h1'⟩ <;> rcases h2 with h2 | ⟨h2, h2'⟩
  · exact Or.inl (Nat.lt_trans h1 h2)
  · exact Or.inl (h2 ▸ h1)
  · exact Or.inl (h1 ▸ h2)
  · exact Or.inr ⟨h1.trans h2, le_trans h1' h2'⟩

theorem voteStep_eq_or (vals : List ℚ) (acc v : ℚ) :
    voteStep vals acc v = acc ∨ voteStep vals acc v = v := by
  unfold voteStep
  split
  · exact Or.inr rfl
  · exact Or.inl rfl

theorem lexLe_voteStep_left (vals : List ℚ) (acc v : ℚ) :
    lexLe vals acc (voteStep vals acc v) := by
  unfold voteStep
  split
  · rename_i h
    rcases h with h | ⟨h, h'⟩
    · exact Or.inl h
    · exact Or.inr ⟨h.symm, le_of_lt h'⟩
  · exact lexLe_refl vals acc

theorem lexLe_voteStep_right (vals : List ℚ) (acc v : ℚ) :
    lexLe vals v (voteStep vals acc v) := by
  unfold voteStep
  split
  · exact lexLe_refl vals v
  · rename_i h
    push_neg at h
    obtain ⟨h1, h2⟩ := h
    rcases Nat.lt_or_ge (vals.count v) (vals.count acc) with hlt | hge
    · exact Or.inl hlt
    · have heq : vals.count v = vals.count acc := Nat.le_antisymm h1 hge
      exact Or.inr ⟨heq, h2 heq⟩

theorem voteFold_spec (vals : List ℚ) (l : List ℚ) :
    ∀ acc : ℚ,
      (l.foldl (voteStep vals) acc = acc ∨ l.foldl (voteStep vals) acc ∈ l) ∧
      lexLe vals acc (l.foldl (voteStep vals) acc) ∧
      ∀ v ∈ l, lexLe vals v (l.foldl (voteStep vals) acc) := by
  induction l with
  | nil =>
    intro acc
    exact ⟨Or.inl rfl, lexLe_refl vals acc, by simp⟩
  | cons b l ih =>
    intro acc
    rw [List.foldl_cons]
    obtain ⟨hmem, hacc, hall⟩ := ih (voteStep vals acc b)
    refine ⟨?_, ?_, ?_⟩
    · rcases hmem with h | h
      · rcases voteStep_eq_or vals acc b with h' | h'
        · exact Or.inl (h.trans h')
        · refine Or.inr ?_
          rw [h, h']
          exact List.mem_cons_self b l
      · exact Or.inr (List.mem_cons_of_mem b h)
    · exact lexLe_trans (lexLe_voteStep_left vals acc b) hacc
    · intro v hv
      rcases List.mem_cons.mp hv with rfl | hv
      · exact lexLe_trans (lexLe_voteStep_right vals acc v) hacc
      · exact hall v hv

theorem voteAt_mem {vals : List ℚ} (h : vals ≠ []) : voteAt vals ∈ vals := by
  obtain ⟨a, l, rfl⟩ := List.exists_cons_of_ne_nil h
  unfold voteAt
  obtain ⟨hmem, -, -⟩ := voteFold_spec (a :: l) (a :: l) ((a :: l).headD 0)
  rcases hmem with h' | h'
  · rw [h']
    exact List.mem_cons_self a l
  · exact h'

theorem voteAt_max {vals : List ℚ} : ∀ v ∈ vals, lexLe vals v (voteAt vals) := by
  cases vals with
  | nil => simp
  | cons a l =>
    exact (voteFold_spec (a :: l) (a :: l) ((a :: l).headD 0)).2.2

theorem all_shapes_of_uniform {t : Tensor} {ts : List Tensor}
    (h : ∀ m ∈ t :: ts, m.shape = t.shape) :
    (ts.all fun s => s.shape = t.shape) = true := by
  simp only [List.all_eq_true, decide_eq_true_eq]
  exact fun s hs => h s (List.mem_cons_of_mem t hs)

theorem all_shapes_false_of_mismatch {t : Tensor} {ts : List Tensor}
    (h : ∃ a ∈ t :: ts, ∃ b ∈ t :: ts, a.shape ≠ b.shape) :
    (ts.all fun s => s.shape = t.shape) = false := by
  by_contra hall
  rw [Bool.not_eq_false] at hall
  simp only [List.all_eq_true, decide_eq_true_eq] at hall
  obtain ⟨a, ha, b, hb, hne⟩ := h
  have sha : a.shape = t.shape := by
    rcases List.mem_cons.mp ha with rfl | ha'
    · rfl
    · exact hall a ha'
  have shb : b.shape = t.shape := by
    rcases List.mem_cons.mp hb with rfl | hb'
    · rfl
    · exact hall b hb'
  exact hne (sha.trans shb.symm)

theorem aggregate_mean_none_eq (t : Tensor) (ts : List Tensor)
    (hsh : (ts.all fun s => s.shape = t.shape) = true) :
    aggregate_mean (t :: ts) none =
      .ok ⟨t.shape, (List.range (numel t.shape)).map (fun j =>
        (((t :: ts).map fun m => m.data.getD j 0).sum) /
          (((t :: ts).length : Nat) : ℚ))⟩ := by
  simp only [aggregate_mean]
  rw [if_pos hsh]

theorem aggregate_mean_rank1_eq (t : Tensor) (ts : List Tensor) (w : List ℚ) (n : Nat)
    (hsh : (ts.all fun s => s.shape = t.shape) = true)
    (hn : n = w.length)
    (hw : w.length = (t :: ts).length) :
    aggregate_mean (t :: ts) (some ⟨[n], w⟩) =
      .ok ⟨t.shape, (List.range (numel t.shape)).map (fun j =>
        (((w.zip (t :: ts)).map fun p => p.1 * p.2.data.getD j 0).sum) /
          (((t :: ts).length : Nat) : ℚ))⟩ := by
  subst hn
  simp only [aggregate_mean]
  rw [if_pos hsh, if_pos]
  exact ⟨rfl, hw⟩

theorem aggregate_mean_rank3_eq (t : Tensor) (ts : List Tensor)
    (wd : List ℚ) (Bw Cw : Nat)
    (hsh : (ts.all fun s => s.shape = t.shape) = true) :
    aggregate_mean (t :: ts) (some ⟨[(t :: ts).length, Bw, Cw], wd⟩) =
      .ok ⟨t.shape, (List.range (numel t.shape)).map (fun j =>
        ((((chunk (Bw * Cw) wd).zip (t :: ts)).map fun p =>
          rank3WeightAt Bw Cw p.1 t.shape j * p.2.data.getD j 0).sum) /
          (((t :: ts).length : Nat) : ℚ))⟩ := by
  simp only [aggregate_mean]
  have h1 : ¬([(t :: ts).length, Bw, Cw].length = 1 ∧
      [(t :: ts).length, Bw, Cw].getD 0 0 = (t :: ts).length) := by simp
  have h2 : [(t :: ts).length, Bw, Cw].length = 3 ∧
      [(t :: ts).length, Bw, Cw].getD 0 0 = (t :: ts).length := ⟨rfl, rfl⟩
  rw [if_pos hsh, if_neg h1, if_pos h2]
  simp only [List.getD_cons_succ, List.getD_cons_zero]

theorem aggregate_mean_weight_mismatch (t : Tensor) (ts : List Tensor) (w : Tensor)
    (hsh : (ts.all fun s => s.shape = t.shape) = true)
    (hbad : ¬(w.shape.getD 0 0 = (t :: ts).length ∧
      (w.shape.length = 1 ∨ w.shape.length = 3))) :
    aggregate_mean (t :: ts) (some w) = .error .WeightShapeMismatch := by
  simp only [aggregate_mean]
  rw [if_pos hsh, if_neg, if_neg]
  · intro hcon
    exact hbad ⟨hcon.2, Or.inr hcon.1⟩
  · intro hcon
    exact hbad ⟨hcon.2, Or.inl hcon.1⟩

theorem aggregate_mean_shape_mismatch (t : Tensor) (ts : List Tensor)
    (w : Option Tensor)
    (hsh : (ts.all fun s => s.shape = t.shape) = false) :
    aggregate_mean (t :: ts) w = .error .ShapeMismatch := by
  simp only [aggregate_mean]
  rw [if_neg]
  simp [hsh]

theorem aggregate_vote_cons_eq (t : Tensor) (ts : List Tensor)
    (hsh : (ts.all fun s => s.shape = t.shape) = true) :
    aggregate_vote (t :: ts) =
      .ok ⟨t.shape, (List.range (numel t.shape)).map (fun j =>
        voteAt ((t :: ts).map fun m => m.data.getD j 0))⟩ := by
  simp only [aggregate_vote]
  rw [if_pos hsh]

theorem aggregate_vote_shape_mismatch (t : Tensor) (ts : List Tensor)
    (hsh : (ts.all fun s => s.shape = t.shape) = false) :
    aggregate_vote (t :: ts) = .error .ShapeMismatch := by
  simp only [aggregate_vote]
  rw [if_neg]
  simp [hsh]

theorem chunk_flatten {K : Nat} (hK : K ≠ 0) (blocks : List (List ℚ))
    (h : ∀ b ∈ blocks, b.length = K) :
    chunk K blocks.flatten = blocks := by
  induction blocks with
  | nil => simp [chunk]
  | cons b bs ih =>
    have hb : b.length = K := h b (List.mem_cons_self b bs)
    have hbs : ∀ x ∈ bs, x.length = K := fun x hx => h x (List.mem_cons_of_mem b hx)
    cases b with
    | nil => exact absurd hb.symm hK
    | cons x xs =>
      show chunk K (x :: (xs ++ bs.flatten)) = (x :: xs) :: bs
      have hstep : chunk K (x :: (xs ++ bs.flatten)) =
          ((x :: (xs ++ bs.flatten)).take K) ::
            chunk K ((x :: (xs ++ bs.flatten)).drop K) := by
        rw [chunk]
        simp [hK]
      rw [hstep]
      have heq : x :: (xs ++ bs.flatten) = (x :: xs) ++ bs.flatten := rfl
      rw [heq, List.take_left' hb, List.drop_left' hb, ih hbs]

/-- Scaling every entry of a tensor by one scalar factor. -/
def scale (a : ℚ) (t : Tensor) : Tensor := ⟨t.shape, t.data.map (fun x => a * x)⟩

theorem zip_pySlice (l : List α) (l' : List β) (a b : Nat) :
    (pySlice l a b).zip (pySlice l' a b) = pySlice (l.zip l') a b := by
  unfold pySlice
  rw [List.zip_eq_zipWith, List.zip_eq_zipWith, ← List.take_zipWith, ← List.drop_zipWith]

theorem pySlice_zero (l : List α) (b : Nat) : pySlice l 0 b = l.take b := by
  simp [pySlice]

theorem pySlice_length (l : List α) (a b : Nat) (hab : a ≤ b) (hb : b ≤ l.length) :
    (pySlice l a b).length = b - a := by
  simp only [pySlice, List.length_take, List.length_drop]
  omega

theorem pySlice_append (l : List α) (a b c : Nat) (hab : a ≤ b) (hbc : b ≤ c) :
    pySlice l a b ++ pySlice l b c = pySlice l a c := by
  unfold pySlice
  have hdrop : l.drop b = (l.drop a).drop (b - a) := by
    rw [List.drop_drop]
    congr 1
    omega
  rw [hdrop, ← List.take_add]
  congr 1
  omega

theorem mean_perm_none (t t' : Tensor) (ts ts' : List Tensor)
    (hsh : ∀ m ∈ t :: ts, m.shape = t.shape)
    (hperm : (t :: ts).Perm (t' :: ts')) :
    aggregate_mean (t :: ts) none = aggregate_mean (t' :: ts') none := by
  have hsh' : ∀ m ∈ t' :: ts', m.shape = t.shape := fun m hm =>
    hsh m (hperm.mem_iff.mpr hm)
  have ht' : t'.shape = t.shape := hsh' t' (List.mem_cons_self t' ts')
  have hts : (ts.all fun s => s.shape = t.shape) = true := all_shapes_of_uniform hsh
  have hts' : (ts'.all fun s => s.shape = t'.shape) = true :=
    all_shapes_of_uniform (fun m hm => (hsh' m hm).trans ht'.symm)
  rw [aggregate_mean_none_eq t ts hts, aggregate_mean_none_eq t' ts' hts', ht']
  have hlen : (t :: ts).length = (t' :: ts').length := hperm.length_eq
  have hfun : (fun j => (((t :: ts).map fun m => m.data.getD j 0).sum) /
        (((t :: ts).length : Nat) : ℚ)) =
      (fun j => (((t' :: ts').map fun m => m.data.getD j 0).sum) /
        (((t' :: ts').length : Nat) : ℚ)) := by
    funext j
    rw [(hperm.map (fun m => m.data.getD j 0)).sum_eq, hlen]
  rw [hfun]

theorem mean_perm_rank1 (t t' : Tensor) (ts ts' : List Tensor) (w w' : List ℚ)
    (hsh : ∀ m ∈ t :: ts, m.shape = t.shape)
    (hw : w.length = (t :: ts).length) (hw' : w'.length = (t' :: ts').length)
    (hperm : (w.zip (t :: ts)).Perm (w'.zip (t' :: ts'))) :
    aggregate_mean (t :: ts) (some ⟨[w.length], w⟩) =
      aggregate_mean (t' :: ts') (some ⟨[w'.length], w'⟩) := by
  have hs : (t :: ts).Perm (t' :: ts') := by
    have h1 : (w.zip (t :: ts)).map Prod.snd = t :: ts :=
      List.map_snd_zip w (t :: ts) (le_of_eq hw.symm)
    have h2 : (w'.zip (t' :: ts')).map Prod.snd = t' :: ts' :=
      List.map_snd_zip w' (t' :: ts') (le_of_eq hw'.symm)
    rw [← h1, ← h2]
    exact hperm.map Prod.snd
  have hsh' : ∀ m ∈ t' :: ts', m.shape = t.shape := fun m hm =>
    hsh m (hs.mem_iff.mpr hm)
  have ht' : t'.shape = t.shape := hsh' t' (List.mem_cons_self t' ts')
  have hts : (ts.all fun s => s.shape = t.shape) = true := all_shapes_of_uniform hsh
  have hts' : (ts'.all fun s => s.shape = t'.shape) = true :=
    all_shapes_of_uniform (fun m hm => (hsh' m hm).trans ht'.symm)
  rw [aggregate_mean_rank1_eq t ts w w.length hts rfl hw,
    aggregate_mean_rank1_eq t' ts' w' w'.length hts' rfl hw', ht']
  have hlen : (t :: ts).length = (t' :: ts').length := hs.length_eq
  have hfun : (fun j => (((w.zip (t :: ts)).map fun p => p.1 * p.2.data.getD j 0).sum) /
        (((t :: ts).length : Nat) : ℚ)) =
      (fun j => (((w'.zip (t' :: ts')).map fun p => p.1 * p.2.data.getD j 0).sum) /
        (((t' :: ts').length : Nat) : ℚ)) := by
    funext j
    rw [(hperm.map (fun p => p.1 * p.2.data.getD j 0)).sum_eq, hlen]
  rw [hfun]

theorem mean_perm_rank3 (t t' : Tensor) (ts ts' : List Tensor)
    (blocks blocks' : List (List ℚ)) (Bw Cw : Nat)
    (hsh : ∀ m ∈ t :: ts, m.shape = t.shape)
    (hK : Bw * Cw ≠ 0)
    (hb : ∀ b ∈ blocks, b.length = Bw * Cw)
    (hb' : ∀ b ∈ blocks', b.length = Bw * Cw)
    (hw : blocks.length = (t :: ts).length)
    (hw' : blocks'.length = (t' :: ts').length)
    (hperm : (blocks.zip (t :: ts)).Perm (blocks'.zip (t' :: ts'))) :
    aggregate_mean (t :: ts) (some ⟨[(t :: ts).length, Bw, Cw], blocks.flatten⟩) =
      aggregate_mean (t' :: ts') (some ⟨[(t' :: ts').length, Bw, Cw], blocks'.flatten⟩) := by
  have hs : (t :: ts).Perm (t' :: ts') := by
    have h1 : (blocks.zip (t :: ts)).map Prod.snd = t :: ts :=
      List.map_snd_zip blocks (t :: ts) (le_of_eq hw.symm)
    have h2 : (blocks'.zip (t' :: ts')).map Prod.snd = t' :: ts' :=
      List.map_snd_zip blocks' (t' :: ts') (le_of_eq hw'.symm)
    rw [← h1, ← h2]
    exact hperm.map Prod.snd
  have hsh' : ∀ m ∈ t' :: ts', m.shape = t.shape := fun m hm =>
    hsh m (hs.mem_iff.mpr hm)
  have ht' : t'.shape = t.shape := hsh' t' (List.mem_cons_self t' ts')
  have hts : (ts.all fun s => s.shape = t.shape) = true := all_shapes_of_uniform hsh
  have hts' : (ts'.all fun s => s.shape = t'.shape) = true :=
    all_shapes_of_uniform (fun m hm => (hsh' m hm).trans ht'.symm)
  rw [aggregate_mean_rank3_eq t ts blocks.flatten Bw Cw hts,
    aggregate_mean_rank3_eq t' ts' blocks'.flatten Bw Cw hts', ht',
    chunk_flatten hK blocks hb, chunk_flatten hK blocks' hb']
  have hlen : (t :: ts).length = (t' :: ts').length := hs.length_eq
  have hfun : (fun j => (((blocks.zip (t :: ts)).map fun p =>
        rank3WeightAt Bw Cw p.1 t.shape j * p.2.data.getD j 0).sum) /
        (((t :: ts).length : Nat) : ℚ)) =
      (fun j => (((blocks'.zip (t' :: ts')).map fun p =>
        rank3WeightAt Bw Cw p.1 t.shape j * p.2.data.getD j 0).sum) /
        (((t' :: ts').length : Nat) : ℚ)) := by
    funext j
    rw [(hperm.map (fun p => rank3WeightAt Bw Cw p.1 t.shape j * p.2.data.getD j 0)).sum_eq,
      hlen]
  rw [hfun]

theorem replicate_one_zip_map (s : List Tensor) (j : Nat) :
    ((List.replicate s.length (1 : ℚ)).zip s).map (fun p => p.1 * p.2.data.getD j 0) =
      s.map (fun m => m.data.getD j 0) := by
  induction s with
  | nil => rfl
  | cons a s ih => simp only [List.length_cons, List.replicate_succ,
      List.zip_cons_cons, List.map_cons, one_mul, ih]

/-! ### Claims -/

/-- Claim C1: for every non-empty stack of identically shaped tensors and a
supplied rank-1 weight vector, aggregate_mean applies each weight as a literal
multiplicative factor to its member and divides the weighted sum by E, not by
the sum of the weights; for the stack [[1],[3],[2]] with weights
[0.95, 0.94, 0.95] the result is (0.95·1 + 0.94·3 + 0.95·2)/3 = 1.89, which
differs from the value normalised by the weight sum. -/
theorem c1_weighted_mean_divides_by_E (t : Tensor) (ts : List Tensor) (w : List ℚ)
    (hsh : ∀ m ∈ t :: ts, m.shape = t.shape)
    (hw : w.length = (t :: ts).length) :
    (∃ r : Tensor, aggregate_mean (t :: ts) (some ⟨[w.length], w⟩) = .ok r ∧
      r.shape = t.shape ∧
      ∀ j, j < numel t.shape → r.data.getD j 0 =
        (((w.zip (t :: ts)).map fun p => p.1 * p.2.data.getD j 0).sum) /
          (((t :: ts).length : Nat) : ℚ)) ∧
    aggregate_mean [⟨[1], [1]⟩, ⟨[1], [3]⟩, ⟨[1], [2]⟩]
        (some ⟨[3], [95/100, 94/100, 95/100]⟩) = .ok ⟨[1], [189/100]⟩ ∧
    (189 / 100 : ℚ) ≠
      (95/100 * 1 + 94/100 * 3 + 95/100 * 2) / (95/100 + 94/100 + 95/100) := by
  refine ⟨⟨_, aggregate_mean_rank1_eq t ts w w.length (all_shapes_of_uniform hsh) rfl hw,
      rfl, ?_⟩, ?_, by norm_num⟩
  · intro j hj
    exact getD_map_range _ j _ hj 0
  · simp [aggregate_mean, numel, List.range_succ]
    norm_num

theorem c1_witness :
    aggregate_mean [⟨[1], [1]⟩, ⟨[1], [3]⟩, ⟨[1], [2]⟩]
      (some ⟨[3], [95/100, 94/100, 95/100]⟩) = .ok ⟨[1], [189/100]⟩ :=
  (c1_weighted_mean_divides_by_E ⟨[1], [1]⟩ [⟨[1], [3]⟩, ⟨[1], [2]⟩] [2, 3, 4]
    (by decide) (by decide)).2.1

/-- Claim C4: for every non-empty stack of identically shaped tensors with no
weights supplied, aggregate_mean returns the element-wise arithmetic mean of
the members; uniform weights of 1 give the same result as no weights, and the
stack [[1],[3],[2]] with no weights yields [2]. -/
theorem c4_unweighted_mean (t : Tensor) (ts : List Tensor)
    (hsh : ∀ m ∈ t :: ts, m.shape = t.shape) :
    (∃ r : Tensor, aggregate_mean (t :: ts) none = .ok r ∧
      r.shape = t.shape ∧
      ∀ j, j < numel t.shape → r.data.getD j 0 =
        (((t :: ts).map fun m => m.data.getD j 0).sum) /
          (((t :: ts).length : Nat) : ℚ)) ∧
    aggregate_mean (t :: ts)
        (some ⟨[(t :: ts).length], List.replicate (t :: ts).length 1⟩) =
      aggregate_mean (t :: ts) none ∧
    aggregate_mean [⟨[1], [1]⟩, ⟨[1], [3]⟩, ⟨[1], [2]⟩] none = .ok ⟨[1], [2]⟩ := by
  have hts : (ts.all fun s => s.shape = t.shape) = true := all_shapes_of_uniform hsh
  refine ⟨⟨_, aggregate_mean_none_eq t ts hts, rfl, ?_⟩, ?_, ?_⟩
  · intro j hj
    exact getD_map_range _ j _ hj 0
  · rw [aggregate_mean_rank1_eq t ts (List.replicate (t :: ts).length 1)
        ((t :: ts).length) hts (List.length_replicate _ _).symm
        (List.length_replicate _ _),
      aggregate_mean_none_eq t ts hts]
    have hfun : (fun j =>
        ((((List.replicate (t :: ts).length (1 : ℚ)).zip (t :: ts)).map
          fun p => p.1 * p.2.data.getD j 0).sum) / (((t :: ts).length : Nat) : ℚ)) =
        (fun j => (((t :: ts).map fun m => m.data.getD j 0).sum) /
          (((t :: ts).length : Nat) : ℚ)) := by
      funext j
      rw [replicate_one_zip_map (t :: ts) j]
    rw [hfun]
  · simp [aggregate_mean, numel, List.range_succ]
    norm_num

theorem c4_witness :
    aggregate_mean [⟨[1], [1]⟩, ⟨[1], [3]⟩, ⟨[1], [2]⟩] none = .ok ⟨[1], [2]⟩ :=
  (c4_unweighted_mean ⟨[1], [1]⟩ [⟨[1], [3]⟩, ⟨[1], [2]⟩] (by decide)).2.2

/-- Claim C5: for every well-formed single-member stack [x] both aggregators
are the identity: aggregate_mean [x] none = x and aggregate_vote [x] = x. -/
theorem c5_single_member_identity (x : Tensor) (hx : x.wf) :
    aggregate_mean [x] none = .ok x ∧ aggregate_vote [x] = .ok x := by
  have hts : (([] : List Tensor).all fun s => s.shape = x.shape) = true := rfl
  have hL : numel x.shape = x.data.length := hx.symm
  constructor
  · rw [aggregate_mean_none_eq x [] hts]
    have hfun : (fun j => ((([x] : List Tensor).map fun m => m.data.getD j 0).sum) /
        ((([x] : List Tensor).length : Nat) : ℚ)) = fun j => x.data.getD j 0 := by
      funext j
      simp
    rw [hfun, hL, map_getD_range]
  · rw [aggregate_vote_cons_eq x [] hts]
    have hfun : (fun j => voteAt (([x] : List Tensor).map fun m => m.data.getD j 0)) =
        fun j => x.data.getD j 0 := by
      funext j
      simp [voteAt, voteStep]
    rw [hfun, hL, map_getD_range]

theorem c5_witness :
    aggregate_mean [⟨[2], [3, 5]⟩] none = .ok ⟨[2], [3, 5]⟩ ∧
      aggregate_vote [⟨[2], [3, 5]⟩] = .ok ⟨[2], [3, 5]⟩ :=
  c5_single_member_identity ⟨[2], [3, 5]⟩ (by decide)

/-- Claim C2: for every non-empty stack of identically shaped tensors the
value aggregate_vote produces at each coordinate is one of the values
observed at that coordinate across the members, and the output has the same
shape as each member. -/
theorem c2_vote_value_observed (t : Tensor) (ts : List Tensor)
    (hsh : ∀ m ∈ t :: ts, m.shape = t.shape) :
    ∃ r : Tensor, aggregate_vote (t :: ts) = .ok r ∧
      r.shape = t.shape ∧ (∀ m ∈ t :: ts, m.shape = r.shape) ∧
      ∀ j, j < numel t.shape →
        r.data.getD j 0 ∈ (t :: ts).map (fun m => m.data.getD j 0) := by
  refine ⟨_, aggregate_vote_cons_eq t ts (all_shapes_of_uniform hsh), rfl, hsh, ?_⟩
  intro j hj
  rw [getD_map_range _ j _ hj 0]
  apply voteAt_mem
  simp

theorem c2_witness :
    ∃ r : Tensor, aggregate_vote [⟨[1], [1]⟩, ⟨[1], [0]⟩] = .ok r ∧
      r.shape = [1] ∧
      (∀ m ∈ [(⟨[1], [1]⟩ : Tensor), ⟨[1], [0]⟩], m.shape = r.shape) ∧
      ∀ j, j < numel [1] →
        r.data.getD j 0 ∈
          [(⟨[1], [1]⟩ : Tensor), ⟨[1], [0]⟩].map (fun m => m.data.getD j 0) :=
  c2_vote_value_observed ⟨[1], [1]⟩ [⟨[1], [0]⟩] (by decide)

/-- Claim C3: aggregate_vote selects at each coordinate a value that is
maximal in the lexicographic order (occurrence count, then numeric value), so
a tie on the highest count is deterministically broken towards the
numerically largest value; the stack [[1],[1],[0]] votes [1] (majority) and
the tied stack [[1],[0]] votes [1]. -/
theorem c3_tie_break_largest (t : Tensor) (ts : List Tensor)
    (hsh : ∀ m ∈ t :: ts, m.shape = t.shape) :
    (∃ r : Tensor, aggregate_vote (t :: ts) = .ok r ∧
      ∀ j, j < numel t.shape →
        ∀ v ∈ (t :: ts).map (fun m => m.data.getD j 0),
          ((t :: ts).map (fun m => m.data.getD j 0)).count v <
              ((t :: ts).map (fun m => m.data.getD j 0)).count (r.data.getD j 0) ∨
            (((t :: ts).map (fun m => m.data.getD j 0)).count v =
              ((t :: ts).map (fun m => m.data.getD j 0)).count (r.data.getD j 0) ∧
              v ≤ r.data.getD j 0)) ∧
    aggregate_vote [⟨[1], [1]⟩, ⟨[1], [1]⟩, ⟨[1], [0]⟩] = .ok ⟨[1], [1]⟩ ∧
    aggregate_vote [⟨[1], [1]⟩, ⟨[1], [0]⟩] = .ok ⟨[1], [1]⟩ := by
  refine ⟨⟨_, aggregate_vote_cons_eq t ts (all_shapes_of_uniform hsh), ?_⟩,
    by decide, by decide⟩
  intro j hj v hv
  rw [getD_map_range _ j _ hj 0]
  exact voteAt_max v hv

theorem c3_witness :
    aggregate_vote [⟨[1], [1]⟩, ⟨[1], [1]⟩, ⟨[1], [0]⟩] = .ok ⟨[1], [1]⟩ :=
  (c3_tie_break_largest ⟨[1], [1]⟩ [] (by decide)).2.1

/-- Claim C6: aggregate_mean is invariant under a simultaneous identical
reordering of the stack and the leading dimension of the weights — stated for
no weights, rank-1 weights and rank-3 weights (whose leading dimension is the
block structure of the flattened weight data) — but not under reordering only
one of the two. -/
theorem c6_perm_invariance :
    (∀ (t t' : Tensor) (ts ts' : List Tensor),
      (∀ m ∈ t :: ts, m.shape = t.shape) → (t :: ts).Perm (t' :: ts') →
      aggregate_mean (t :: ts) none = aggregate_mean (t' :: ts') none) ∧
    (∀ (t t' : Tensor) (ts ts' : List Tensor) (w w' : List ℚ),
      (∀ m ∈ t :: ts, m.shape = t.shape) →
      w.length = (t :: ts).length → w'.length = (t' :: ts').length →
      (w.zip (t :: ts)).Perm (w'.zip (t' :: ts')) →
      aggregate_mean (t :: ts) (some ⟨[w.length], w⟩) =
        aggregate_mean (t' :: ts') (some ⟨[w'.length], w'⟩)) ∧
    (∀ (t t' : Tensor) (ts ts' : List Tensor)
        (blocks blocks' : List (List ℚ)) (Bw Cw : Nat),
      (∀ m ∈ t :: ts, m.shape = t.shape) → Bw * Cw ≠ 0 →
      (∀ b ∈ blocks, b.length = Bw * Cw) → (∀ b ∈ blocks', b.length = Bw * Cw) →
      blocks.length = (t :: ts).length → blocks'.length = (t' :: ts').length →
      (blocks.zip (t :: ts)).Perm (blocks'.zip (t' :: ts')) →
      aggregate_mean (t :: ts) (some ⟨[(t :: ts).length, Bw, Cw], blocks.flatten⟩) =
        aggregate_mean (t' :: ts')
          (some ⟨[(t' :: ts').length, Bw, Cw], blocks'.flatten⟩)) ∧
    aggregate_mean [⟨[1], [1]⟩, ⟨[1], [0]⟩] (some ⟨[2], [1, 0]⟩) ≠
      aggregate_mean [⟨[1], [0]⟩, ⟨[1], [1]⟩] (some ⟨[2], [1, 0]⟩) := by
  refine ⟨mean_perm_none, mean_perm_rank1, mean_perm_rank3, ?_⟩
  have hL : aggregate_mean [⟨[1], [1]⟩, ⟨[1], [0]⟩] (some ⟨[2], [1, 0]⟩) =
      .ok ⟨[1], [1/2]⟩ := by
    simp [aggregate_mean, numel, List.range_succ]
  have hR : aggregate_mean [⟨[1], [0]⟩, ⟨[1], [1]⟩] (some ⟨[2], [1, 0]⟩) =
      .ok ⟨[1], [0]⟩ := by
    simp [aggregate_mean, numel, List.range_succ]
  rw [hL, hR]
  intro hcon
  simp only [Except.ok.injEq, Tensor.mk.injEq, List.cons.injEq, and_true,
    true_and] at hcon
  norm_num at hcon

theorem c6_witness :
    aggregate_mean [⟨[1], [5]⟩, ⟨[1], [7]⟩] (some ⟨[2], [2, 3]⟩) =
      aggregate_mean [⟨[1], [7]⟩, ⟨[1], [5]⟩] (some ⟨[2], [3, 2]⟩) :=
  c6_perm_invariance.2.1 ⟨[1], [5]⟩ ⟨[1], [7]⟩ [⟨[1], [7]⟩] [⟨[1], [5]⟩]
    [2, 3] [3, 2] (by decide) (by decide) (by decide) (by decide)

/-- Claim C8: for both aggregators an empty stack fails with EmptyStack and a
stack with two members of different shapes fails with ShapeMismatch; the
validations are decided before any computation, so an ok result is only ever
produced for a non-empty stack of identically shaped members (no partial
result on invalid input). -/
theorem c8_eager_validation :
    (∀ w, aggregate_mean [] w = .error .EmptyStack) ∧
    aggregate_vote [] = .error .EmptyStack ∧
    (∀ (stack : List Tensor) (w : Option Tensor),
      (∃ a ∈ stack, ∃ b ∈ stack, a.shape ≠ b.shape) →
      aggregate_mean stack w = .error .ShapeMismatch ∧
        aggregate_vote stack = .error .ShapeMismatch) ∧
    (∀ (stack : List Tensor) (w : Option Tensor) (r : Tensor),
      aggregate_mean stack w = .ok r ∨ aggregate_vote stack = .ok r →
      stack ≠ [] ∧ ∀ a ∈ stack, ∀ b ∈ stack, a.shape = b.shape) := by
  refine ⟨fun w => rfl, rfl, ?_, ?_⟩
  · intro stack w h
    match stack with
    | [] =>
      obtain ⟨a, ha, -⟩ := h
      exact absurd ha (List.not_mem_nil a)
    | t :: ts =>
      have hf := all_shapes_false_of_mismatch h
      exact ⟨aggregate_mean_shape_mismatch t ts w hf,
        aggregate_vote_shape_mismatch t ts hf⟩
  · intro stack w r h
    match stack with
    | [] =>
      rcases h with h | h <;> exact Except.noConfusion h
    | t :: ts =>
      refine ⟨List.cons_ne_nil t ts, ?_⟩
      by_cases hall : (ts.all fun s => s.shape = t.shape) = true
      · have hu : ∀ m ∈ t :: ts, m.shape = t.shape := by
          intro m hm
          rcases List.mem_cons.mp hm with rfl | hm'
          · rfl
          · simpa using List.all_eq_true.mp hall m hm'
        intro a ha b hb
        rw [hu a ha, hu b hb]
      · have hf : (ts.all fun s => s.shape = t.shape) = false :=
          Bool.not_eq_true _ ▸ hall
        rcases h with h | h
        · rw [aggregate_mean_shape_mismatch t ts w hf] at h
          exact Except.noConfusion h
        · rw [aggregate_vote_shape_mismatch t ts hf] at h
          exact Except.noConfusion h

theorem c8_witness :
    aggregate_mean [⟨[1], [1]⟩, ⟨[2], [1, 1]⟩] none = .error .ShapeMismatch ∧
      aggregate_vote [⟨[1], [1]⟩, ⟨[2], [1, 1]⟩] = .error .ShapeMismatch :=
  c8_eager_validation.2.2.1 [⟨[1], [1]⟩, ⟨[2], [1, 1]⟩] none (by decide)

/-- Claim C9: both aggregators are pure functions of their arguments — two
calls with identical inputs return identical results (no hidden state enters
the computation; the embedding itself carries no mutable state, so no call
can mutate its inputs or retain state between calls). -/
theorem c9_pure_deterministic (s s' : List Tensor) (w w' : Option Tensor)
    (hs : s = s') (hw : w = w') :
    aggregate_mean s w = aggregate_mean s' w' ∧
      aggregate_vote s = aggregate_vote s' := by
  subst hs
  subst hw
  exact ⟨rfl, rfl⟩

theorem c9_witness :
    aggregate_mean [⟨[1], [1]⟩] none = aggregate_mean [⟨[1], [1]⟩] none ∧
      aggregate_vote [⟨[1], [1]⟩] = aggregate_vote [⟨[1], [1]⟩] :=
  c9_pure_deterministic [⟨[1], [1]⟩] [⟨[1], [1]⟩] none none rfl rfl

theorem mean_rank1_as_scaled (t : Tensor) (ts : List Tensor) (v : List ℚ)
    (hsh : ∀ m ∈ t :: ts, m.shape = t.shape)
    (hv : v.length = (t :: ts).length) :
    aggregate_mean (t :: ts) (some ⟨[v.length], v⟩) =
      aggregate_mean ((v.zip (t :: ts)).map fun p => scale p.1 p.2) none := by
  cases v with
  | nil => simp at hv
  | cons a as =>
    have has : as.length = ts.length := by simpa using hv
    have hts : (ts.all fun s => s.shape = t.shape) = true := all_shapes_of_uniform hsh
    rw [aggregate_mean_rank1_eq t ts (a :: as) (a :: as).length hts rfl hv]
    have hzip : ((a :: as).zip (t :: ts)).map (fun p => scale p.1 p.2) =
        scale a t :: (as.zip ts).map (fun p => scale p.1 p.2) := by
      rw [List.zip_cons_cons, List.map_cons]
    rw [hzip]
    have hts2 : (((as.zip ts).map fun p => scale p.1 p.2).all
        (fun s => s.shape = (scale a t).shape)) = true := by
      simp only [List.all_eq_true, decide_eq_true_eq]
      intro x hx
      obtain ⟨p, hp, rfl⟩ := List.mem_map.mp hx
      show p.2.shape = t.shape
      exact hsh p.2 (List.mem_cons_of_mem t (List.of_mem_zip hp).2)
    rw [aggregate_mean_none_eq (scale a t) _ hts2]
    have hlen : (scale a t :: (as.zip ts).map fun p => scale p.1 p.2).length =
        (t :: ts).length := by
      simp [List.length_zip, has]
    have hfun : (fun j =>
        ((((a :: as).zip (t :: ts)).map fun p => p.1 * p.2.data.getD j 0).sum) /
          (((t :: ts).length : Nat) : ℚ)) =
        (fun j =>
        (((scale a t :: (as.zip ts).map fun p => scale p.1 p.2).map
          fun m => m.data.getD j 0).sum) /
          (((scale a t :: (as.zip ts).map fun p => scale p.1 p.2).length : Nat) : ℚ)) := by
      funext j
      rw [hlen]
      congr 1
      rw [List.zip_cons_cons, List.map_cons, List.map_cons, List.map_map]
      refine congrArg List.sum (congrArg₂ List.cons ?_ ?_)
      · exact (getD_map_mul a t.data j).symm
      · apply List.map_congr_left
        intro p hp
        exact (getD_map_mul p.1 p.2.data j).symm
    rw [hfun]
    rfl

/-- Claim C7: for a non-empty stack of identically shaped tensors,
aggregate_mean fails with WeightShapeMismatch exactly when the weight array's
leading dimension differs from E or its rank is neither 1 nor 3; a valid
rank-1 weight vector acts by scaling each member by its own single factor
(broadcast over the ensemble dimension only), and a valid rank-3 weight array
is read blockwise over (E, Batch, Channel) and broadcast over the remaining
spatial positions. -/
theorem c7_weight_validation (t : Tensor) (ts : List Tensor) (w : Tensor)
    (hsh : ∀ m ∈ t :: ts, m.shape = t.shape) :
    (aggregate_mean (t :: ts) (some w) = .error .WeightShapeMismatch ↔
      ¬(w.shape.getD 0 0 = (t :: ts).length ∧
        (w.shape.length = 1 ∨ w.shape.length = 3))) ∧
    (∀ v : List ℚ, v.length = (t :: ts).length →
      aggregate_mean (t :: ts) (some ⟨[v.length], v⟩) =
        aggregate_mean ((v.zip (t :: ts)).map fun p => scale p.1 p.2) none) ∧
    (∀ (wd : List ℚ) (Bw Cw : Nat),
      ∃ r : Tensor,
        aggregate_mean (t :: ts) (some ⟨[(t :: ts).length, Bw, Cw], wd⟩) = .ok r ∧
        ∀ j, j < numel t.shape → r.data.getD j 0 =
          ((((chunk (Bw * Cw) wd).zip (t :: ts)).map fun p =>
            rank3WeightAt Bw Cw p.1 t.shape j * p.2.data.getD j 0).sum) /
            (((t :: ts).length : Nat) : ℚ)) := by
  have hts : (ts.all fun s => s.shape = t.shape) = true := all_shapes_of_uniform hsh
  refine ⟨⟨?_, aggregate_mean_weight_mismatch t ts w hts⟩,
    fun v hv => mean_rank1_as_scaled t ts v hsh hv, ?_⟩
  · intro h hcond
    by_cases h1 : w.shape.length = 1 ∧ w.shape.getD 0 0 = (t :: ts).length
    · simp only [aggregate_mean] at h
      rw [if_pos hts, if_pos h1] at h
      exact Except.noConfusion h
    · by_cases h2 : w.shape.length = 3 ∧ w.shape.getD 0 0 = (t :: ts).length
      · simp only [aggregate_mean] at h
        rw [if_pos hts, if_neg h1, if_pos h2] at h
        exact Except.noConfusion h
      · rcases hcond with ⟨hlead, hr | hr⟩
        · exact h1 ⟨hr, hlead⟩
        · exact h2 ⟨hr, hlead⟩
  · intro wd Bw Cw
    refine ⟨_, aggregate_mean_rank3_eq t ts wd Bw Cw hts, ?_⟩
    intro j hj
    exact getD_map_range _ j _ hj 0

theorem c7_witness :
    aggregate_mean [⟨[1], [1]⟩, ⟨[1], [3]⟩] (some ⟨[2, 2], [1, 2, 3, 4]⟩) =
      .error .WeightShapeMismatch :=
  (c7_weight_validation ⟨[1], [1]⟩ [⟨[1], [3]⟩] ⟨[2, 2], [1, 2, 3, 4]⟩
    (by decide)).1.mpr (by decide)

theorem val_files_eq (images segs : List α) (i : Nat) :
    val_files images segs i = pySlice (images.zip segs) (10 * i) (10 * (i + 1)) :=
  zip_pySlice images segs (10 * i) (10 * (i + 1))

theorem train_files_eq (images segs : List α) (i : Nat)
    (h1 : images.length = 60) (h2 : segs.length = 60) (hi : i < 5) :
    train_files images segs i =
      pySlice (images.zip segs) 0 (10 * i) ++
        pySlice (images.zip segs) (10 * (i + 1)) 50 := by
  unfold train_files
  rw [List.zip_append (by
      rw [pySlice_length images 0 (10 * i) (by omega) (by omega),
        pySlice_length segs 0 (10 * i) (by omega) (by omega)]),
    zip_pySlice, zip_pySlice]

/-- Claim C10: for each fold index i < 5 of the notebook K-fold split over 60
image/label pairs, the validation set is exactly the pairs at positions
10 i .. 10 (i+1) - 1 (10 pairs) and the training set is exactly the remaining
40 of the first 50 pairs; training and validation are disjoint and jointly a
permutation of the first 50 pairs, and the 10 test pairs (positions 50..59)
are disjoint from both. -/
theorem c10_kfold_split {α : Type} (images segs : List α)
    (h1 : images.length = 60) (h2 : segs.length = 60) (i : Nat) (hi : i < 5) :
    val_files images segs i = pySlice (images.zip segs) (10 * i) (10 * (i + 1)) ∧
    (val_files images segs i).length = 10 ∧
    train_files images segs i =
      pySlice (images.zip segs) 0 (10 * i) ++
        pySlice (images.zip segs) (10 * (i + 1)) 50 ∧
    (train_files images segs i).length = 40 ∧
    (train_files images segs i ++ val_files images segs i).Perm
      ((images.zip segs).take 50) ∧
    test_files images segs = (images.zip segs).drop 50 ∧
    (test_files images segs).length = 10 ∧
    ((images.zip segs).Nodup →
      (train_files images segs i).Disjoint (val_files images segs i) ∧
      (train_files images segs i).Disjoint (test_files images segs) ∧
      (val_files images segs i).Disjoint (test_files images segs)) := by
  have hplen : (images.zip segs).length = 60 := by
    rw [List.length_zip, h1, h2]
    omega
  have hv : val_files images segs i =
      pySlice (images.zip segs) (10 * i) (10 * (i + 1)) := val_files_eq images segs i
  have ht : train_files images segs i =
      pySlice (images.zip segs) 0 (10 * i) ++
        pySlice (images.zip segs) (10 * (i + 1)) 50 :=
    train_files_eq images segs i h1 h2 hi
  have hvlen : (val_files images segs i).length = 10 := by
    rw [hv, pySlice_length (images.zip segs) (10 * i) (10 * (i + 1))
      (by omega) (by omega)]
    omega
  have htr0 : pySlice (images.zip segs) 0 (10 * i) ++
      pySlice (images.zip segs) (10 * i) 50 = pySlice (images.zip segs) 0 50 :=
    pySlice_append (images.zip segs) 0 (10 * i) 50 (by omega) (by omega)
  have htr1 : pySlice (images.zip segs) (10 * i) (10 * (i + 1)) ++
      pySlice (images.zip segs) (10 * (i + 1)) 50 =
        pySlice (images.zip segs) (10 * i) 50 :=
    pySlice_append (images.zip segs) (10 * i) (10 * (i + 1)) 50 (by omega) (by omega)
  have hperm : (train_files images segs i ++ val_files images segs i).Perm
      ((images.zip segs).take 50) := by
    rw [ht, hv, show (images.zip segs).take 50 = pySlice (images.zip segs) 0 50 from
      (pySlice_zero (images.zip segs) 50).symm, ← htr0, ← htr1, List.append_assoc]
    exact List.Perm.append_left _ List.perm_append_comm
  have htrlen : (train_files images segs i).length = 40 := by
    have hl := hperm.length_eq
    rw [List.length_append, hvlen, List.length_take] at hl
    omega
  have hte : test_files images segs = (images.zip segs).drop 50 := by
    rw [show test_files images segs = pySlice (images.zip segs) 50 60 from
      zip_pySlice images segs 50 60]
    unfold pySlice
    apply List.take_of_length_le
    rw [List.length_drop]
    omega
  have htelen : (test_files images segs).length = 10 := by
    rw [hte, List.length_drop]
    omega
  refine ⟨hv, hvlen, ht, htrlen, hperm, hte, htelen, ?_⟩
  intro hnd
  have hnd50 : ((images.zip segs).take 50).Nodup :=
    (List.take_sublist 50 (images.zip segs)).nodup hnd
  have hndtv : (train_files images segs i ++ val_files images segs i).Nodup :=
    hperm.symm.nodup hnd50
  have hdisj_td : ((images.zip segs).take 50).Disjoint ((images.zip segs).drop 50) := by
    have hnd' : ((images.zip segs).take 50 ++ (images.zip segs).drop 50).Nodup := by
      rw [List.take_append_drop]
      exact hnd
    exact (List.nodup_append.mp hnd').2.2
  have hsub_t : ∀ x ∈ train_files images segs i, x ∈ (images.zip segs).take 50 :=
    fun x hx => hperm.mem_iff.mp (List.mem_append_left _ hx)
  have hsub_v : ∀ x ∈ val_files images segs i, x ∈ (images.zip segs).take 50 :=
    fun x hx => hperm.mem_iff.mp (List.mem_append_right _ hx)
  refine ⟨(List.nodup_append.mp hndtv).2.2, ?_, ?_⟩
  · intro x hx hx'
    rw [hte] at hx'
    exact hdisj_td (hsub_t x hx) hx'
  · intro x hx hx'
    rw [hte] at hx'
    exact hdisj_td (hsub_v x hx) hx'

theorem c10_witness :
    (train_files (List.range 60) ((List.range 60).map (· + 100)) 2).length = 40 ∧
      (val_files (List.range 60) ((List.range 60).map (· + 100)) 2).length = 10 :=
  ⟨(c10_kfold_split (List.range 60) ((List.range 60).map (· + 100))
      (by simp) (by simp) 2 (by omega)).2.2.2.1,
    (c10_kfold_split (List.range 60) ((List.range 60).map (· + 100))
      (by simp) (by simp) 2 (by omega)).2.1⟩

end MonaiEnsemble
